import Mathlib

/-!
Shallow embedding of the approximate FABIA inference engine
(`src/fabia_approx.c`) over exact rational arithmetic, together with proofs
of the claims the specification makes about it.

Modelling conventions.
* C `float` values are modelled as `ℚ`; all arithmetic is exact.
* Column-major arrays are modelled as curried functions on `Fin` indices:
  the n×k matrix entry `A[i1 + i2*n]` is `A i1 i2`.
* The external routines the engine calls are threaded as parameters:
  `rpow` models `powf`, `rsqrt` models `sqrtf`, `randn` models the stream of
  `rand_normal()` draws (indexed by the number of draws made so far), and
  `inv` models the LAPACK `spotrf`/`spotri` pair inside `invertCholesky`
  (which, on a symmetric positive-definite input, computes the matrix
  inverse).  Theorems quantify over these parameters; concrete instances
  used in witnesses agree with the real routines at every point at which
  the run under consideration calls them.
* The OpenMP-parallel loops accumulate into thread-local buffers that are
  then reduced by `+`; since rational addition is associative and
  commutative this is modelled by the equivalent sequential fold over the
  sample (resp. element) indices.
* `printf`/`updateUI` calls and the timing instrumentation perform no state
  mutation visible to the caller and are not modelled.
-/

namespace Fabia

/-- The constant `MACHINE_EPS = 1e-7` of fabia_approx.c. -/
def MACHINE_EPS : ℚ := 1 / 10 ^ 7

/-- Result record of one call of the E-step kernel `approx_estimateZ`:
the factor scores `z` and, when accumulation is on, the updated per-sample
variational parameters and the two sufficient statistics. -/
structure EStep (n k : ℕ) where
  z : Fin k → ℚ
  lapla : Fin k → ℚ
  sum1 : Fin n → Fin k → ℚ
  sum2 : Fin k → Fin k → ℚ

/-- Loop at fabia_approx.c:66-69: `iLPsiL[i] = 1.0f/(LPsiL[i]+lapla[i]+MACHINE_EPS)`. -/
def iLPsiLdiag (k : ℕ) (LPsiL lapla : Fin k → ℚ) : Fin k → ℚ :=
  fun i => 1 / (LPsiL i + lapla i + MACHINE_EPS)

/-- Loop at fabia_approx.c:71-76: starting from `z = 0`, for each feature `i`
do `z[j] += (LPsi[i*k+j] * iLPsiL[j]) * x[i]` (the parenthesised product is
the scratch value `iLPsiLX[i*k+j]`). -/
def zAccum (n k : ℕ) (x : Fin n → ℚ) (LPsi : Fin n → Fin k → ℚ)
    (iL : Fin k → ℚ) : Fin k → ℚ :=
  (List.finRange n).foldl (fun z i => fun j => z j + LPsi i j * iL j * x i)
    (fun _ => 0)

/-- The E-step kernel `approx_estimateZ` (fabia_approx.c:63-93).  The flag
`accum` models `sum1 != NULL && sum2 != NULL`: when false the kernel returns
right after computing `z` (line 78-79), leaving `lapla`, `sum1`, `sum2`
untouched.  When true it performs the rank-1 update `sum1 += x zᵀ` (line 81),
the second-moment update of `sum2` (lines 83-87) and the variational update
`lapla[i] = max(lap, (MACHINE_EPS + iLPsiL[i] + z[i]²)^(−spz))` (lines 88-91,
where `iLPsiL[i] += z[i]*z[i]` is folded in). -/
def approx_estimateZ (n k : ℕ) (x : Fin n → ℚ) (lapla : Fin k → ℚ)
    (LPsi : Fin n → Fin k → ℚ) (LPsiL : Fin k → ℚ)
    (sum1 : Fin n → Fin k → ℚ) (sum2 : Fin k → Fin k → ℚ)
    (spz lap : ℚ) (rpow : ℚ → ℚ → ℚ) (accum : Bool) : EStep n k :=
  let iL := iLPsiLdiag k LPsiL lapla
  let z := zAccum n k x LPsi iL
  if accum then
    { z := z
      lapla := fun i =>
        let s := rpow (MACHINE_EPS + (iL i + z i * z i)) (-spz)
        if s < lap then lap else s
      sum1 := fun i j => sum1 i j + x i * z j
      sum2 := fun i j => sum2 i j + z i * z j + (if i = j then iL i else 0) }
  else
    { z := z, lapla := lapla, sum1 := sum1, sum2 := sum2 }

/-- Loop at fabia_approx.c:175-181, entry form: `LPsi[i2*k+i1] = L[i2+i1*n]/Psi[i2]`. -/
def LPsiOf (n k : ℕ) (L : Fin n → Fin k → ℚ) (Psi : Fin n → ℚ) :
    Fin n → Fin k → ℚ :=
  fun i2 i1 => L i2 i1 / Psi i2

/-- Loop at fabia_approx.c:175-181, accumulation `LPsiL[i1] += L[i2+i1*n]*LPsi[i2*k+i1]`. -/
def LPsiLOf (n k : ℕ) (L : Fin n → Fin k → ℚ) (Psi : Fin n → ℚ) :
    Fin k → ℚ :=
  fun i1 => ∑ i2, L i2 i1 * LPsiOf n k L Psi i2 i1

/-- EM controls of `approx_fabia_cm_f` that the model threads around
(`verbose` and `nthreads` have no modelled effect, see the header comment). -/
structure Params where
  cyc : ℕ
  alpha : ℚ
  eps : ℚ
  spl : ℚ
  spz : ℚ
  scale : Bool
  lap : ℚ

/-- External routines of one engine call (see the header comment):
`powf`, `sqrtf`, the `rand_normal()` stream, and the LAPACK-based
`invertCholesky` body acting on the k×k matrix `sum2`. -/
structure Ext (k : ℕ) where
  rpow : ℚ → ℚ → ℚ
  rsqrt : ℚ → ℚ
  randn : ℕ → ℚ
  inv : (Fin k → Fin k → ℚ) → Fin k → Fin k → ℚ

/-- Mutable caller-visible state of the EM loop, plus a draw counter for the
`rand_normal()` stream. -/
structure EMState (n k l : ℕ) where
  L : Fin n → Fin k → ℚ
  Psi : Fin n → ℚ
  Z : Fin k → Fin l → ℚ
  lapla : Fin k → Fin l → ℚ
  rng : ℕ

/-- Accumulator of the parallel E-step dispatch (fabia_approx.c:192-211),
after reduction: the updated `Z` and `lapla` columns and the reduced
sufficient statistics. -/
structure EAccum (n k l : ℕ) where
  Z : Fin k → Fin l → ℚ
  lapla : Fin k → Fin l → ℚ
  sum1 : Fin n → Fin k → ℚ
  sum2 : Fin k → Fin k → ℚ

/-- Processing of one sample column `j` by the E-step dispatch
(fabia_approx.c:193-200): run the kernel on column `j` of `X`, `Z`, `lapla`
with accumulation on. -/
def estepSample (n k l : ℕ) (X : Fin n → Fin l → ℚ) (spz lap : ℚ)
    (rpow : ℚ → ℚ → ℚ) (LPsi : Fin n → Fin k → ℚ) (LPsiL : Fin k → ℚ)
    (ac : EAccum n k l) (j : Fin l) : EAccum n k l :=
  let r := approx_estimateZ n k (fun i2 => X i2 j) (fun i => ac.lapla i j)
    LPsi LPsiL ac.sum1 ac.sum2 spz lap rpow true
  { Z := fun i j1 => if j1 = j then r.z i else ac.Z i j1
    lapla := fun i j1 => if j1 = j then r.lapla i else ac.lapla i j1
    sum1 := r.sum1
    sum2 := r.sum2 }

/-- The E-step over all samples of one iteration, with the `sum1`/`sum2`
buffers zeroed and the diagonal of `sum2` seeded with `eps`
(fabia_approx.c:184-211).  The thread decomposition reduces by rational
addition, so it is modelled by the sequential fold over the samples. -/
def estepAll (n k l : ℕ) (X : Fin n → Fin l → ℚ) (spz lap eps : ℚ)
    (rpow : ℚ → ℚ → ℚ) (LPsi : Fin n → Fin k → ℚ) (LPsiL : Fin k → ℚ)
    (Z0 : Fin k → Fin l → ℚ) (lapla0 : Fin k → Fin l → ℚ) : EAccum n k l :=
  (List.finRange l).foldl (estepSample n k l X spz lap rpow LPsi LPsiL)
    { Z := Z0, lapla := lapla0, sum1 := fun _ _ => 0
      sum2 := fun i j => if i = j then eps else 0 }

/-- The E-step of one iteration starting from state `st`, with `LPsi` and
`LPsiL` rebuilt from the current `L` and `Psi` (fabia_approx.c:175-211). -/
def iterEs (n k l : ℕ) (X : Fin n → Fin l → ℚ) (p : Params) (ext : Ext k)
    (st : EMState n k l) : EAccum n k l :=
  estepAll n k l X p.spz p.lap p.eps ext.rpow
    (LPsiOf n k st.L st.Psi) (LPsiLOf n k st.L st.Psi) st.Z st.lapla

/-- The new loadings before shrinkage, `L = sum1 · invertCholesky(sum2)`
(the `gemm` call at fabia_approx.c:216). -/
def iterL1 (n k l : ℕ) (X : Fin n → Fin l → ℚ) (p : Params) (ext : Ext k)
    (st : EMState n k l) : Fin n → Fin k → ℚ :=
  fun i1 i2 => ∑ j, (iterEs n k l X p ext st).sum1 i1 j
    * ext.inv (iterEs n k l X p ext st).sum2 j i2

/-- The sign helper `(s > 0) - (s < 0)` of fabia_approx.c:222. -/
def csign (s : ℚ) : ℚ :=
  if 0 < s then 1 else if s < 0 then -1 else 0

/-- The reserved switch of fabia_approx.c:148, wired to 0. -/
def non_negative : ℤ := 0

/-- Shrinkage of one loading entry (fabia_approx.c:221-231): with
`t = |Psi[i1]·alpha·(MACHINE_EPS+|s|)^(−spl)|`, replace `s` by `s − sgn·t`
when `|s| > t` and by `0` otherwise (the `non_negative` guard is wired
open). -/
def shrinkEntry (rpow : ℚ → ℚ → ℚ) (alpha spl Psii s : ℚ) : ℚ :=
  let sgn := csign s
  if non_negative ≤ 0 ∨ 0 < sgn then
    let t := |Psii * alpha * rpow (MACHINE_EPS + |s|) (-spl)|
    if t < |s| then s - sgn * t else 0
  else 0

/-- The shrinkage step applied to the whole loading matrix
(fabia_approx.c:219-232). -/
def shrinkL (n k : ℕ) (rpow : ℚ → ℚ → ℚ) (alpha spl : ℚ) (Psi : Fin n → ℚ)
    (L : Fin n → Fin k → ℚ) : Fin n → Fin k → ℚ :=
  fun i1 i2 => shrinkEntry rpow alpha spl (Psi i1) (L i1 i2)

/-- The post-shrinkage loadings of one iteration. -/
def iterL2 (n k l : ℕ) (X : Fin n → Fin l → ℚ) (p : Params) (ext : Ext k)
    (st : EMState n k l) : Fin n → Fin k → ℚ :=
  shrinkL n k ext.rpow p.alpha p.spl st.Psi (iterL1 n k l X p ext st)

/-- The diagonal `d[i1] = Σ_{i2} L[i1,i2]·sum1[i1,i2]` of `L·sum1ᵀ`
computed in the noise-variance update (fabia_approx.c:240-243). -/
def iterD (n k l : ℕ) (X : Fin n → Fin l → ℚ) (p : Params) (ext : Ext k)
    (st : EMState n k l) : Fin n → ℚ :=
  fun i1 => ∑ i2, iterL2 n k l X p ext st i1 i2
    * (iterEs n k l X p ext st).sum1 i1 i2

/-- The running maximum `t` of `|d[i1]|` over the features, starting from 0
(fabia_approx.c:238-245). -/
def iterT (n k l : ℕ) (X : Fin n → Fin l → ℚ) (p : Params) (ext : Ext k)
    (st : EMState n k l) : ℚ :=
  (List.finRange n).foldl
    (fun acc i1 => if acc < |iterD n k l X p ext st i1| then
      |iterD n k l X p ext st i1| else acc) 0

/-- The new noise variances `Psi[i1] = XX[i1] − d[i1]/l`, clamped up to `eps`
(fabia_approx.c:246-249). -/
def iterPsi (n k l : ℕ) (X : Fin n → Fin l → ℚ) (XX : Fin n → ℚ)
    (p : Params) (ext : Ext k) (st : EMState n k l) : Fin n → ℚ :=
  fun i1 =>
    let v := XX i1 - iterD n k l X p ext st i1 / (l : ℚ)
    if v < p.eps then p.eps else v

/-- The optional column rescale (fabia_approx.c:263-278): with
`m = 1/(sqrt(Σⱼ L[j,i]²/n)+MACHINE_EPS)`, scale column i of `L` by `m` and
row i of `lapla` by `(m·m)^(−spz)`.  The factor loop has independent
iterations, so it is modelled pointwise. -/
def scaleStep (n k l : ℕ) (rsqrt : ℚ → ℚ) (rpow : ℚ → ℚ → ℚ) (spz : ℚ)
    (L : Fin n → Fin k → ℚ) (lapla : Fin k → Fin l → ℚ) :
    (Fin n → Fin k → ℚ) × (Fin k → Fin l → ℚ) :=
  let m : Fin k → ℚ :=
    fun i => 1 / (rsqrt ((∑ j, L j i * L j i) / (n : ℚ)) + MACHINE_EPS)
  (fun j i => L j i * m i, fun i j => lapla i j * rpow (m i * m i) (-spz))

/-- Body of the dead-column scan (fabia_approx.c:282-298) for one factor
`i`: when column `i` of the current `L` is all zero, refill it with the next
`n` draws of the `rand_normal()` stream and set row `i` of `lapla` to 1. -/
def resetFun (n k l : ℕ) (randn : ℕ → ℚ)
    (ac : (Fin n → Fin k → ℚ) × (Fin k → Fin l → ℚ) × ℕ) (i : Fin k) :
    (Fin n → Fin k → ℚ) × (Fin k → Fin l → ℚ) × ℕ :=
  if ∀ j, ac.1 j i = 0 then
    (fun j i1 => if i1 = i then randn (ac.2.2 + j.val) else ac.1 j i1,
     fun i1 j => if i1 = i then 1 else ac.2.1 i1 j,
     ac.2.2 + n)
  else ac

/-- The dead-column reset (fabia_approx.c:281-298): scan the factors in
order, reinitialising every all-zero column of `L`. -/
def resetStep (n k l : ℕ) (randn : ℕ → ℚ) (L0 : Fin n → Fin k → ℚ)
    (lapla0 : Fin k → Fin l → ℚ) (rng0 : ℕ) :
    (Fin n → Fin k → ℚ) × (Fin k → Fin l → ℚ) × ℕ :=
  (List.finRange k).foldl (resetFun n k l randn) (L0, lapla0, rng0)

/-- One iteration of the EM loop (fabia_approx.c:173-306) from state `st`:
E-step, reduction, Cholesky-based inverse, loading update, shrinkage,
noise-variance update, then either the collapse exit (second component
`true`; `Psi` and `lapla` flattened to `eps`, rescale and reset skipped) or
the optional rescale, the dead-column reset and a normal completion.  The
first component is the new state, the middle one the value of `t`. -/
def iterStep (n k l : ℕ) (X : Fin n → Fin l → ℚ) (XX : Fin n → ℚ)
    (p : Params) (ext : Ext k) (st : EMState n k l) :
    EMState n k l × ℚ × Bool :=
  let es := iterEs n k l X p ext st
  let L2 := iterL2 n k l X p ext st
  let tN := iterT n k l X p ext st
  if tN < p.eps then
    ({ L := L2, Psi := fun _ => p.eps, Z := es.Z, lapla := fun _ _ => p.eps
       rng := st.rng }, tN, true)
  else
    let Psi1 := iterPsi n k l X XX p ext st
    let sc := if p.scale then scaleStep n k l ext.rsqrt ext.rpow p.spz L2 es.lapla
      else (L2, es.lapla)
    let rs := resetStep n k l ext.randn sc.1 sc.2 st.rng
    ({ L := rs.1, Psi := Psi1, Z := es.Z, lapla := rs.2.1, rng := rs.2.2 },
     tN, false)

/-- The EM loop (fabia_approx.c:173-306): run `iterStep` up to the given
number of times, stopping early at a collapse exit; the second component is
the final value of the variable `t` (0 when no iteration ran). -/
def emLoop (n k l : ℕ) (X : Fin n → Fin l → ℚ) (XX : Fin n → ℚ)
    (p : Params) (ext : Ext k) : ℕ → EMState n k l → ℚ → EMState n k l × ℚ
  | 0, st, t => (st, t)
  | m + 1, st, _t =>
    if (iterStep n k l X XX p ext st).2.2 then
      ((iterStep n k l X XX p ext st).1, (iterStep n k l X XX p ext st).2.1)
    else emLoop n k l X XX p ext m (iterStep n k l X XX p ext st).1
      (iterStep n k l X XX p ext st).2.1

/-- The per-feature mean squares `XX[i2] = (Σ_{i1} X[i2,i1]²)/l`
(fabia_approx.c:162-168). -/
def XXOf (n l : ℕ) (X : Fin n → Fin l → ℚ) : Fin n → ℚ :=
  fun i2 => (∑ i1, X i2 i1 * X i2 i1) / (l : ℚ)

/-- The `Z` produced by the final E-only pass (fabia_approx.c:309-326):
rebuild `LPsi`/`LPsiL` from the final `L`, `Psi` and run the kernel per
sample with null accumulators. -/
def finalZ (n k l : ℕ) (X : Fin n → Fin l → ℚ) (spz lap : ℚ)
    (rpow : ℚ → ℚ → ℚ) (L : Fin n → Fin k → ℚ) (Psi : Fin n → ℚ)
    (lapla : Fin k → Fin l → ℚ) : Fin k → Fin l → ℚ :=
  fun i j => (approx_estimateZ n k (fun i2 => X i2 j) (fun i1 => lapla i1 j)
    (LPsiOf n k L Psi) (LPsiLOf n k L Psi) (fun _ _ => 0) (fun _ _ => 0)
    spz lap rpow false).z i

/-- The four caller-visible in/out arrays as the engine returns them. -/
structure FabiaOut (n k l : ℕ) where
  L : Fin n → Fin k → ℚ
  Psi : Fin n → ℚ
  Z : Fin k → Fin l → ℚ
  lapla : Fin k → Fin l → ℚ

/-- Enforcement of the `lap` floor at fabia_approx.c:159-160:
`if (lap < eps) lap = eps`. -/
def lapRaise (p : Params) : Params :=
  if p.lap < p.eps then { p with lap := p.eps } else p

/-- The caller-supplied in/out arrays assembled as the state the EM loop
starts from, with no `rand_normal()` draw made yet. -/
def initState (n k l : ℕ) (Psi0 : Fin n → ℚ) (L0 : Fin n → Fin k → ℚ)
    (Z0 : Fin k → Fin l → ℚ) (lapla0 : Fin k → Fin l → ℚ) :
    EMState n k l :=
  { L := L0, Psi := Psi0, Z := Z0, lapla := lapla0, rng := 0 }

/-- The engine body after the scratch allocations succeeded
(fabia_approx.c:144-344): raise `lap` to at least `eps`, precompute `XX`,
run the EM loop from the caller-supplied state, then either run the final
E-only pass (when the last `t` was ≥ `eps`) or zero `Z`. -/
def fabiaMain (n k l : ℕ) (X : Fin n → Fin l → ℚ) (Psi0 : Fin n → ℚ)
    (L0 : Fin n → Fin k → ℚ) (Z0 : Fin k → Fin l → ℚ)
    (lapla0 : Fin k → Fin l → ℚ) (p : Params) (ext : Ext k) :
    FabiaOut n k l :=
  if p.eps ≤ (emLoop n k l X (XXOf n l X) (lapRaise p) ext p.cyc
      (initState n k l Psi0 L0 Z0 lapla0) 0).2 then
    { L := (emLoop n k l X (XXOf n l X) (lapRaise p) ext p.cyc
        (initState n k l Psi0 L0 Z0 lapla0) 0).1.L
      Psi := (emLoop n k l X (XXOf n l X) (lapRaise p) ext p.cyc
        (initState n k l Psi0 L0 Z0 lapla0) 0).1.Psi
      lapla := (emLoop n k l X (XXOf n l X) (lapRaise p) ext p.cyc
        (initState n k l Psi0 L0 Z0 lapla0) 0).1.lapla
      Z := finalZ n k l X (lapRaise p).spz (lapRaise p).lap ext.rpow
        (emLoop n k l X (XXOf n l X) (lapRaise p) ext p.cyc
          (initState n k l Psi0 L0 Z0 lapla0) 0).1.L
        (emLoop n k l X (XXOf n l X) (lapRaise p) ext p.cyc
          (initState n k l Psi0 L0 Z0 lapla0) 0).1.Psi
        (emLoop n k l X (XXOf n l X) (lapRaise p) ext p.cyc
          (initState n k l Psi0 L0 Z0 lapla0) 0).1.lapla }
  else
    { L := (emLoop n k l X (XXOf n l X) (lapRaise p) ext p.cyc
        (initState n k l Psi0 L0 Z0 lapla0) 0).1.L
      Psi := (emLoop n k l X (XXOf n l X) (lapRaise p) ext p.cyc
        (initState n k l Psi0 L0 Z0 lapla0) 0).1.Psi
      lapla := (emLoop n k l X (XXOf n l X) (lapRaise p) ext p.cyc
        (initState n k l Psi0 L0 Z0 lapla0) 0).1.lapla
      Z := fun _ _ => 0 }

/-- The entry point `approx_fabia_cm_f` (fabia_approx.c:115-345).
`allocOk i` tells whether the i-th of the seven startup `malloc` calls
(`sum1_`, `sum2_`, `XX`, `LPsi`, `LPsiL`, `iLPsiL_`, `iLPsiLX_`, in source
order) returned a non-null pointer; the C code guards only the last one
(`if (!iLPsiLX_)`, line 131) and on its failure zeroes `L` and `Z` and
returns without touching `Psi` or `lapla`. -/
def approx_fabia_cm_f (n k l : ℕ) (X : Fin n → Fin l → ℚ)
    (Psi0 : Fin n → ℚ) (L0 : Fin n → Fin k → ℚ) (Z0 : Fin k → Fin l → ℚ)
    (lapla0 : Fin k → Fin l → ℚ) (p : Params) (ext : Ext k)
    (allocOk : Fin 7 → Bool) : FabiaOut n k l :=
  if allocOk 6 then fabiaMain n k l X Psi0 L0 Z0 lapla0 p ext
  else
    { L := fun _ _ => 0, Psi := Psi0, Z := fun _ _ => 0, lapla := lapla0 }

/-- Quadratic form `vᵀ S v` of a k×k matrix, used to state positive
definiteness of `sum2`. -/
def qf (k : ℕ) (S : Fin k → Fin k → ℚ) (v : Fin k → ℚ) : ℚ :=
  ∑ i, ∑ j, v i * S i j * v j

/-- Invariant carried through the E-step fold: nonnegative variational
parameters, and a symmetric positive-definite `sum2`. -/
def sum2Inv (n k l : ℕ) (lap : ℚ) (ac : EAccum n k l) : Prop :=
  (∀ i j, 0 ≤ ac.lapla i j)
  ∧ (∀ i j, ac.sum2 i j = ac.sum2 j i)
  ∧ ∀ v : Fin k → ℚ, v ≠ 0 → 0 < qf k ac.sum2 v

/-- Reciprocal-diagonal matrix inverse: it coincides with the LAPACK
`spotrf`/`spotri` inverse modelled by `Ext.inv` whenever the argument is
diagonal with nonzero diagonal, as it is in the concrete runs below that
use it. -/
def diagInv (k : ℕ) (A : Fin k → Fin k → ℚ) : Fin k → Fin k → ℚ :=
  fun i j => if i = j then 1 / A i i else 0

/-- External-routine instance for concrete runs whose exponents `spl`,
`spz` are 0, so that `powf(x, -0.0) = 1` is the constant-one function; the
`rand_normal()` stream constantly draws 1 (a possible draw), `sqrtf` is
never consulted in those runs, and `invertCholesky` is the identity (those
runs only invert against a zero `sum1`, so the product is 0 regardless). -/
def extId (k : ℕ) : Ext k :=
  { rpow := fun _ _ => 1, rsqrt := fun _ => 0, randn := fun _ => 1
    inv := fun A => A }

/-- Parameter set of the concrete collapse run (`cyc=1`, `eps=1`,
`spl=spz=0`). -/
def pC3 : Params :=
  { cyc := 1, alpha := 1, eps := 1, spl := 0, spz := 0, scale := false
    lap := 1 }

/-- Caller state of the concrete collapse run: `Psi=1`, `L=1`, `Z=0`,
`lapla=1` with `n=k=l=1`. -/
def stC3 : EMState 1 1 1 :=
  initState 1 1 1 (fun _ => 1) (fun _ _ => 1) (fun _ _ => 0) (fun _ _ => 1)

/-- Data matrix of the dead-column-reset run: the single sample is 10. -/
def XC4 : Fin 1 → Fin 1 → ℚ := fun _ _ => 10

/-- Parameter set of the dead-column-reset run: `lap = 2 > 1`, shrinkage
exponent 0, no rescale. -/
def pC4 : Params :=
  { cyc := 1, alpha := 1/10, eps := 1/100, spl := 0, spz := 0, scale := false
    lap := 2 }

/-- External routines of the dead-column-reset run (`spl=spz=0`, so `powf`
is constantly 1); `sum2` is diagonal in this run (the first factor score is
0), so `diagInv` is the exact `invertCholesky` result. -/
def extC4 : Ext 2 :=
  { rpow := fun _ _ => 1, rsqrt := fun _ => 0, randn := fun _ => 1
    inv := diagInv 2 }

/-- Caller state of the dead-column-reset run: the first loading column is
zero, the second is one. -/
def stC4 : EMState 1 2 1 :=
  initState 1 2 1 (fun _ => 1) (fun _ i => if i = 0 then 0 else 1)
    (fun _ _ => 0) (fun _ _ => 1)

/-- Data matrix of the rescale run: the single sample is 1. -/
def XC4b : Fin 1 → Fin 1 → ℚ := fun _ _ => 1

/-- Model of `powf` at the two exponents the rescale run uses:
`powf(x, -0.0) = 1` and `powf(x, -1.0) = 1/x`. -/
def powC4b : ℚ → ℚ → ℚ :=
  fun x y => if y = 0 then 1 else if y = -1 then x⁻¹ else 0

/-- Parameter set of the rescale run: `scale=1`, `spz=1`, `lap = 2`. -/
def pC4b : Params :=
  { cyc := 1, alpha := 1/4, eps := 1/100, spl := 0, spz := 1, scale := true
    lap := 2 }

/-- Caller state of the rescale run. -/
def stC4b : EMState 1 1 1 :=
  initState 1 1 1 (fun _ => 1) (fun _ _ => 1) (fun _ _ => 0) (fun _ _ => 1)

/-- The post-shrinkage loading value of the rescale run; the run calls
`sqrtf` exactly once, on its square. -/
def L2C4b : ℚ := 49600002959999999/121600004160000004

/-- Model of `sqrtf` at the one point the rescale run consults it. -/
def rsqrtC4b : ℚ → ℚ := fun x => if x = L2C4b ^ 2 then L2C4b else 0

/-- External routines of the rescale run. -/
def extC4b : Ext 1 :=
  { rpow := powC4b, rsqrt := rsqrtC4b, randn := fun _ => 1
    inv := diagInv 1 }

/-- Parameter set exercising a completed iteration with `eps = -1` (every
iteration completes since `t ≥ 0 > -1` always). -/
def pC4w : Params :=
  { cyc := 1, alpha := 1, eps := -1, spl := 0, spz := 0, scale := false
    lap := 0 }

/-- Parameter set with `cyc = 0` and `eps = 1`. -/
def pC6 : Params :=
  { cyc := 0, alpha := 1, eps := 1, spl := 0, spz := 0, scale := false
    lap := 1 }

/-- Allocation outcome in which only the first `malloc` (the `sum1_`
buffer) fails.  With `cyc=0` and `eps>0` the C engine never dereferences
`sum1_` on this path (the EM loop does not run and the final branch takes
the `memset(Z,0,...)` arm), so the model is faithful to the run. -/
def allocFail0 : Fin 7 → Bool := fun i => if i.val = 0 then false else true

end Fabia

namespace Fabia

/-- Unfolding a `foldl` that pointwise accumulates `f i j` into a function:
its value at `j` is the start value plus the sum of the contributions. -/
theorem foldl_pointwise_add (k : ℕ) (f : α → Fin k → ℚ) (js : List α)
    (z0 : Fin k → ℚ) (j : Fin k) :
    (js.foldl (fun z i => fun j => z j + f i j) z0) j
      = z0 j + (js.map (fun i => f i j)).sum := by
  induction js generalizing z0 with
  | nil => simp
  | cons i is ih =>
    simp only [List.foldl_cons, List.map_cons, List.sum_cons]
    rw [ih]
    ring

/-- The z-loop of the kernel computes `z[j] = Σᵢ LPsi[i,j]·iL[j]·x[i]`. -/
theorem zAccum_eq_sum (n k : ℕ) (x : Fin n → ℚ) (LPsi : Fin n → Fin k → ℚ)
    (iL : Fin k → ℚ) (j : Fin k) :
    zAccum n k x LPsi iL j = ∑ i, LPsi i j * iL j * x i := by
  rw [zAccum, foldl_pointwise_add, Fin.sum_univ_def]
  simp

/-- The z returned by the kernel, whether accumulating or not, is
`z[j] = Σᵢ LPsi[i,j] · iLPsiL[j] · x[i]`. -/
theorem estimateZ_z_eq (n k : ℕ) (x : Fin n → ℚ) (lapla : Fin k → ℚ)
    (LPsi : Fin n → Fin k → ℚ) (LPsiL : Fin k → ℚ)
    (sum1 : Fin n → Fin k → ℚ) (sum2 : Fin k → Fin k → ℚ)
    (spz lap : ℚ) (rpow : ℚ → ℚ → ℚ) (accum : Bool) (j : Fin k) :
    (approx_estimateZ n k x lapla LPsi LPsiL sum1 sum2 spz lap rpow
        accum).z j
      = ∑ i, LPsi i j * iLPsiLdiag k LPsiL lapla j * x i := by
  cases accum <;>
    simp only [approx_estimateZ, Bool.false_eq_true, if_false, if_true,
      zAccum_eq_sum]

/-- C1: for every sample column x, with L, Psi and the variational
parameters lap_j fixed, the E-step kernel computes
`iLPsiL[i] = 1/(LPsiL[i] + lap_j[i] + MACHINE_EPS)` for every factor i, and
the returned posterior mean is `z[j] = Σᵢ LPsi[j,i]·iLPsiL[j]·x[i]`,
i.e. `z = diag(iLPsiL) · LPsi · x`. -/
theorem C1_estimateZ_posterior_mean (n k : ℕ) (x : Fin n → ℚ)
    (lapla : Fin k → ℚ) (LPsi : Fin n → Fin k → ℚ) (LPsiL : Fin k → ℚ)
    (sum1 : Fin n → Fin k → ℚ) (sum2 : Fin k → Fin k → ℚ)
    (spz lap : ℚ) (rpow : ℚ → ℚ → ℚ) (accum : Bool) :
    (∀ i, iLPsiLdiag k LPsiL lapla i
        = 1 / (LPsiL i + lapla i + MACHINE_EPS))
    ∧ ∀ j, (approx_estimateZ n k x lapla LPsi LPsiL sum1 sum2 spz lap rpow
        accum).z j
      = ∑ i, LPsi i j * (1 / (LPsiL j + lapla j + MACHINE_EPS)) * x i := by
  refine ⟨fun i => rfl, fun j => ?_⟩
  rw [estimateZ_z_eq]
  rfl

/-- C9: the E-step posterior mean is linear in the data: for fixed L, Psi,
lapla and any scalar c, the kernel run on the scaled column `c·x` returns a
z equal to c times the z obtained on x. -/
theorem C9_estep_linear_in_x (n k : ℕ) (c : ℚ) (x : Fin n → ℚ)
    (lapla : Fin k → ℚ) (LPsi : Fin n → Fin k → ℚ) (LPsiL : Fin k → ℚ)
    (sum1 : Fin n → Fin k → ℚ) (sum2 : Fin k → Fin k → ℚ)
    (spz lap : ℚ) (rpow : ℚ → ℚ → ℚ) (accum : Bool) :
    (approx_estimateZ n k (fun i => c * x i) lapla LPsi LPsiL sum1 sum2
        spz lap rpow accum).z
      = fun j => c * (approx_estimateZ n k x lapla LPsi LPsiL sum1 sum2
        spz lap rpow accum).z j := by
  funext j
  rw [estimateZ_z_eq, estimateZ_z_eq, Finset.mul_sum]
  exact Finset.sum_congr rfl fun i _ => by ring

/-- Soft-thresholding by `t` with `t < |s|` shortens `|s|` by exactly `t`. -/
theorem abs_sub_csign_mul (s t : ℚ) (h0 : 0 ≤ t) (h : t < |s|) :
    |s| - |s - csign s * t| = t := by
  rcases lt_trichotomy s 0 with hs | hs | hs
  · have hcs : csign s = -1 := by
      simp only [csign, if_neg (not_lt.mpr hs.le), if_pos hs]
    have habs : |s| = -s := abs_of_neg hs
    have hlt : s + t < 0 := by
      rw [habs] at h; linarith
    rw [hcs, habs]
    have : s - (-1) * t = s + t := by ring
    rw [this, abs_of_neg hlt]
    ring
  · subst hs
    simp only [abs_zero] at h
    exact absurd h (not_lt.mpr h0)
  · have hcs : csign s = 1 := by simp only [csign, if_pos hs]
    have habs : |s| = s := abs_of_pos hs
    have hpos : 0 < s - t := by rw [habs] at h; linarith
    rw [hcs, habs, one_mul, abs_of_pos hpos]
    ring

/-- C2: after the shrinkage step, each entry `L[i1,i2]`, with `s` its value
before shrinkage and `t = |Psi[i1]·alpha·(MACHINE_EPS+|s|)^(−spl)|`, equals
`s − sign(s)·t` when `|s| > t` and equals exactly 0 otherwise; equivalently
every post-shrinkage entry is either 0 or reduced in absolute value by
exactly `t`. -/
theorem C2_shrinkage (n k : ℕ) (rpow : ℚ → ℚ → ℚ) (alpha spl : ℚ)
    (Psi : Fin n → ℚ) (L : Fin n → Fin k → ℚ) (i1 : Fin n) (i2 : Fin k) :
    (shrinkL n k rpow alpha spl Psi L i1 i2
      = if |Psi i1 * alpha * rpow (MACHINE_EPS + |L i1 i2|) (-spl)|
            < |L i1 i2|
          then L i1 i2 - csign (L i1 i2)
            * |Psi i1 * alpha * rpow (MACHINE_EPS + |L i1 i2|) (-spl)|
          else 0)
    ∧ (shrinkL n k rpow alpha spl Psi L i1 i2 = 0
      ∨ |L i1 i2| - |shrinkL n k rpow alpha spl Psi L i1 i2|
          = |Psi i1 * alpha * rpow (MACHINE_EPS + |L i1 i2|) (-spl)|) := by
  have hguard : (non_negative ≤ 0 ∨ 0 < csign (L i1 i2)) := Or.inl le_rfl
  have h1 : shrinkL n k rpow alpha spl Psi L i1 i2
      = if |Psi i1 * alpha * rpow (MACHINE_EPS + |L i1 i2|) (-spl)|
            < |L i1 i2|
          then L i1 i2 - csign (L i1 i2)
            * |Psi i1 * alpha * rpow (MACHINE_EPS + |L i1 i2|) (-spl)|
          else 0 := by
    simp only [shrinkL, shrinkEntry, if_pos hguard]
  refine ⟨h1, ?_⟩
  by_cases h : |Psi i1 * alpha * rpow (MACHINE_EPS + |L i1 i2|) (-spl)|
      < |L i1 i2|
  · right
    rw [h1, if_pos h]
    exact abs_sub_csign_mul _ _ (abs_nonneg _) h
  · left
    rw [h1, if_neg h]

/-- The clamped noise-variance update never goes below `eps`. -/
theorem iterPsi_ge_eps (n k l : ℕ) (X : Fin n → Fin l → ℚ) (XX : Fin n → ℚ)
    (p : Params) (ext : Ext k) (st : EMState n k l) (i : Fin n) :
    p.eps ≤ iterPsi n k l X XX p ext st i := by
  simp only [iterPsi]
  split
  · exact le_rfl
  · next h => exact le_of_not_lt h

/-- Either exit of one EM iteration (collapse or normal) leaves every
`Psi[i]` at least `eps`. -/
theorem iterStep_psi_ge_eps (n k l : ℕ) (X : Fin n → Fin l → ℚ)
    (XX : Fin n → ℚ) (p : Params) (ext : Ext k) (st : EMState n k l)
    (i : Fin n) :
    p.eps ≤ (iterStep n k l X XX p ext st).1.Psi i := by
  rw [iterStep]
  by_cases h : iterT n k l X p ext st < p.eps
  · simp only [if_pos h]
    exact le_rfl
  · simp only [if_neg h]
    exact iterPsi_ge_eps n k l X XX p ext st i

/-- After at least one iteration of the EM loop, every `Psi[i]` is at least
`eps`. -/
theorem emLoop_psi_ge_eps (n k l : ℕ) (X : Fin n → Fin l → ℚ)
    (XX : Fin n → ℚ) (p : Params) (ext : Ext k) :
    ∀ (m : ℕ) (st : EMState n k l) (t0 : ℚ) (i : Fin n), 1 ≤ m →
      p.eps ≤ (emLoop n k l X XX p ext m st t0).1.Psi i := by
  intro m
  induction m with
  | zero => intro st t0 i h; exact absurd h (by omega)
  | succ m ih =>
    intro st t0 i _
    rw [emLoop]
    by_cases hb : (iterStep n k l X XX p ext st).2.2
    · simp only [hb, if_true]
      exact iterStep_psi_ge_eps n k l X XX p ext st i
    · simp only [hb, if_false]
      cases m with
      | zero =>
        rw [emLoop]
        exact iterStep_psi_ge_eps n k l X XX p ext st i
      | succ m1 =>
        exact ih (iterStep n k l X XX p ext st).1
          (iterStep n k l X XX p ext st).2.1 i (by omega)

/-- With at least one EM cycle, the engine body returns `Psi[i] ≥ eps`. -/
theorem fabiaMain_psi_ge_eps (n k l : ℕ) (X : Fin n → Fin l → ℚ)
    (Psi0 : Fin n → ℚ) (L0 : Fin n → Fin k → ℚ) (Z0 : Fin k → Fin l → ℚ)
    (lapla0 : Fin k → Fin l → ℚ) (p : Params) (ext : Ext k) (i : Fin n)
    (hcyc : 1 ≤ p.cyc) :
    p.eps ≤ (fabiaMain n k l X Psi0 L0 Z0 lapla0 p ext).Psi i := by
  have he : (lapRaise p).eps = p.eps := by
    rw [lapRaise]; split <;> rfl
  have h2 := emLoop_psi_ge_eps n k l X (XXOf n l X) (lapRaise p) ext p.cyc
    (initState n k l Psi0 L0 Z0 lapla0) 0 i hcyc
  rw [he] at h2
  rw [fabiaMain]
  split
  · exact h2
  · exact h2

/-- C5: after every M-step — whether the iteration completes or exits via
collapse — `Psi[i] ≥ eps` holds for every feature i: each newly computed
`Psi[i] = XX[i] − d[i]/l` is clamped up to `eps` and the collapse path sets
`Psi[i] = eps` exactly; hence on every exit of an EM loop that ran at least
one iteration the returned `Psi` is pointwise at least `eps`. -/
theorem C5_psi_ge_eps :
    (∀ (n k l : ℕ) (X : Fin n → Fin l → ℚ) (XX : Fin n → ℚ) (p : Params)
        (ext : Ext k) (st : EMState n k l) (i : Fin n),
      p.eps ≤ (iterStep n k l X XX p ext st).1.Psi i)
    ∧ ∀ (n k l : ℕ) (X : Fin n → Fin l → ℚ) (Psi0 : Fin n → ℚ)
        (L0 : Fin n → Fin k → ℚ) (Z0 : Fin k → Fin l → ℚ)
        (lapla0 : Fin k → Fin l → ℚ) (p : Params) (ext : Ext k) (i : Fin n),
      1 ≤ p.cyc →
        p.eps ≤ (fabiaMain n k l X Psi0 L0 Z0 lapla0 p ext).Psi i :=
  ⟨fun n k l X XX p ext st i => iterStep_psi_ge_eps n k l X XX p ext st i,
   fun n k l X Psi0 L0 Z0 lapla0 p ext i h =>
     fabiaMain_psi_ge_eps n k l X Psi0 L0 Z0 lapla0 p ext i h⟩

/-- C10: the final E-only pass never modifies `lapla`: invoked with null
accumulators the kernel returns right after computing z, leaving `lapla`
(and the accumulators) exactly as given, so the `lapla` the engine returns
is exactly its value at the end of the EM loop — after the last M-step,
including any rescale and dead-column reset of that iteration — for every
sample column. -/
theorem C10_final_pass_lapla_frame :
    (∀ (n k : ℕ) (x : Fin n → ℚ) (lapla : Fin k → ℚ)
        (LPsi : Fin n → Fin k → ℚ) (LPsiL : Fin k → ℚ)
        (sum1 : Fin n → Fin k → ℚ) (sum2 : Fin k → Fin k → ℚ)
        (spz lap : ℚ) (rpow : ℚ → ℚ → ℚ),
      (approx_estimateZ n k x lapla LPsi LPsiL sum1 sum2 spz lap rpow
          false).lapla = lapla
      ∧ (approx_estimateZ n k x lapla LPsi LPsiL sum1 sum2 spz lap rpow
          false).sum1 = sum1
      ∧ (approx_estimateZ n k x lapla LPsi LPsiL sum1 sum2 spz lap rpow
          false).sum2 = sum2)
    ∧ ∀ (n k l : ℕ) (X : Fin n → Fin l → ℚ) (Psi0 : Fin n → ℚ)
        (L0 : Fin n → Fin k → ℚ) (Z0 : Fin k → Fin l → ℚ)
        (lapla0 : Fin k → Fin l → ℚ) (p : Params) (ext : Ext k),
      (fabiaMain n k l X Psi0 L0 Z0 lapla0 p ext).lapla
        = (emLoop n k l X (XXOf n l X) (lapRaise p) ext p.cyc
            (initState n k l Psi0 L0 Z0 lapla0) 0).1.lapla := by
  constructor
  · intro n k x lapla LPsi LPsiL sum1 sum2 spz lap rpow
    exact ⟨rfl, rfl, rfl⟩
  · intro n k l X Psi0 L0 Z0 lapla0 p ext
    rw [fabiaMain]
    split <;> rfl

/-- Unfolding of one EM iteration on the collapse branch. -/
theorem iterStep_collapse (n k l : ℕ) (X : Fin n → Fin l → ℚ)
    (XX : Fin n → ℚ) (p : Params) (ext : Ext k) (st : EMState n k l)
    (h : iterT n k l X p ext st < p.eps) :
    iterStep n k l X XX p ext st
      = ({ L := iterL2 n k l X p ext st, Psi := fun _ => p.eps
           Z := (iterEs n k l X p ext st).Z, lapla := fun _ _ => p.eps
           rng := st.rng }, iterT n k l X p ext st, true) := by
  simp only [iterStep, if_pos h]

/-- C3: if, in any iteration, the running maximum `t` of `|d[i]|` computed
in the noise-variance update is strictly below `eps`, then the engine sets
`Psi[i] = eps` for every i and `lapla[i,j] = eps` for every i,j, terminates
the EM loop at once with the post-shrinkage `L` — the rescale and reset
steps of that iteration are not executed and no `rand_normal()` draw is
made — and, the final `t` being below `eps`, the engine returns with `Z`
zeroed instead of running the final E-only pass.  (The diagnostic `printf`
performs no caller-visible state change and is outside the model.) -/
theorem C3_collapse_exit :
    (∀ (n k l : ℕ) (X : Fin n → Fin l → ℚ) (XX : Fin n → ℚ) (p : Params)
        (ext : Ext k) (st : EMState n k l),
      iterT n k l X p ext st < p.eps →
        iterStep n k l X XX p ext st
          = ({ L := iterL2 n k l X p ext st, Psi := fun _ => p.eps
               Z := (iterEs n k l X p ext st).Z, lapla := fun _ _ => p.eps
               rng := st.rng }, iterT n k l X p ext st, true))
    ∧ (∀ (n k l : ℕ) (X : Fin n → Fin l → ℚ) (XX : Fin n → ℚ) (p : Params)
        (ext : Ext k) (st : EMState n k l),
      iterT n k l X p ext st < p.eps → ∀ (m : ℕ) (t0 : ℚ),
        emLoop n k l X XX p ext (m + 1) st t0
          = ({ L := iterL2 n k l X p ext st, Psi := fun _ => p.eps
               Z := (iterEs n k l X p ext st).Z, lapla := fun _ _ => p.eps
               rng := st.rng }, iterT n k l X p ext st))
    ∧ ∀ (n k l : ℕ) (X : Fin n → Fin l → ℚ) (Psi0 : Fin n → ℚ)
        (L0 : Fin n → Fin k → ℚ) (Z0 : Fin k → Fin l → ℚ)
        (lapla0 : Fin k → Fin l → ℚ) (p : Params) (ext : Ext k),
      (emLoop n k l X (XXOf n l X) (lapRaise p) ext p.cyc
          (initState n k l Psi0 L0 Z0 lapla0) 0).2 < p.eps →
        (fabiaMain n k l X Psi0 L0 Z0 lapla0 p ext).Z = fun _ _ => 0 := by
  refine ⟨iterStep_collapse, ?_, ?_⟩
  · intro n k l X XX p ext st h m t0
    rw [emLoop, iterStep_collapse n k l X XX p ext st h]
    rfl
  · intro n k l X Psi0 L0 Z0 lapla0 p ext h
    rw [fabiaMain, if_neg (not_le.mpr h)]

/-- Witness for the C3 theorem at a concrete collapse run: n=k=l=1, X=0,
Psi=L=lapla=1, eps=1; the computed t is 0 < eps. -/
theorem C3_collapse_exit_witness :
    iterStep 1 1 1 (fun _ _ => 0) (fun _ => 0) pC3 (extId 1) stC3
      = ({ L := iterL2 1 1 1 (fun _ _ => 0) pC3 (extId 1) stC3
           Psi := fun _ => pC3.eps
           Z := (iterEs 1 1 1 (fun _ _ => 0) pC3 (extId 1) stC3).Z
           lapla := fun _ _ => pC3.eps, rng := stC3.rng },
         iterT 1 1 1 (fun _ _ => 0) pC3 (extId 1) stC3, true) :=
  C3_collapse_exit.1 1 1 1 (fun _ _ => 0) (fun _ => 0) pC3 (extId 1) stC3
    (by norm_num [iterT, iterD, iterL2, iterL1, iterEs, estepAll,
      estepSample, approx_estimateZ, zAccum, iLPsiLdiag, LPsiOf, LPsiLOf,
      shrinkL, shrinkEntry, csign, non_negative, MACHINE_EPS, initState,
      List.finRange_succ, List.finRange_zero, Fin.sum_univ_one, extId, pC3,
      stC3])

theorem qf_add (k : ℕ) (A B : Fin k → Fin k → ℚ) (v : Fin k → ℚ) :
    qf k (fun i j => A i j + B i j) v = qf k A v + qf k B v := by
  simp only [qf, ← Finset.sum_add_distrib]
  exact Finset.sum_congr rfl fun i _ => Finset.sum_congr rfl fun j _ => by
    ring

theorem qf_outer (k : ℕ) (z v : Fin k → ℚ) :
    qf k (fun i j => z i * z j) v = (∑ i, z i * v i) ^ 2 := by
  rw [qf, sq, Finset.sum_mul_sum]
  exact Finset.sum_congr rfl fun i _ => Finset.sum_congr rfl fun j _ => by
    ring

theorem qf_diag (k : ℕ) (d v : Fin k → ℚ) :
    qf k (fun i j => if i = j then d i else 0) v = ∑ i, d i * v i ^ 2 := by
  rw [qf]
  refine Finset.sum_congr rfl fun i _ => ?_
  rw [Finset.sum_eq_single i]
  · simp; ring
  · intro j _ hji
    simp [Ne.symm hji]
  · intro h
    exact absurd (Finset.mem_univ i) h

/-- Each entry of the diagonal approximate posterior precision is positive
when `LPsiL` and the variational parameters are nonnegative. -/
theorem iLPsiLdiag_pos (k : ℕ) (LPsiL lapla : Fin k → ℚ)
    (hL : ∀ i, 0 ≤ LPsiL i) (hlap : ∀ i, 0 ≤ lapla i) (i : Fin k) :
    0 < iLPsiLdiag k LPsiL lapla i := by
  rw [iLPsiLdiag]
  have hm : (0:ℚ) < MACHINE_EPS := by norm_num [MACHINE_EPS]
  have h1 := hL i
  have h2 := hlap i
  exact one_div_pos.mpr (by linarith)

/-- With positive noise variances, the diagonal of `LᵀΨ⁻¹L` is nonnegative. -/
theorem LPsiLOf_nonneg (n k : ℕ) (L : Fin n → Fin k → ℚ) (Psi : Fin n → ℚ)
    (hPsi : ∀ i2, 0 < Psi i2) (i : Fin k) :
    0 ≤ LPsiLOf n k L Psi i := by
  refine Finset.sum_nonneg fun i2 _ => ?_
  rw [LPsiOf, ← mul_div_assoc]
  exact div_nonneg (mul_self_nonneg _) (hPsi i2).le

theorem estepSample_preserves (n k l : ℕ) (X : Fin n → Fin l → ℚ)
    (spz lap : ℚ) (rpow : ℚ → ℚ → ℚ) (LPsi : Fin n → Fin k → ℚ)
    (LPsiL : Fin k → ℚ) (hlap : 0 ≤ lap) (hLPsiL : ∀ i, 0 ≤ LPsiL i)
    (ac : EAccum n k l) (j : Fin l) (h : sum2Inv n k l lap ac) :
    sum2Inv n k l lap (estepSample n k l X spz lap rpow LPsi LPsiL ac j) := by
  obtain ⟨hlapla, hsymm, hpd⟩ := h
  set iL := iLPsiLdiag k LPsiL (fun i => ac.lapla i j) with hiL
  have hiLpos : ∀ i, 0 < iL i :=
    iLPsiLdiag_pos k LPsiL _ hLPsiL (fun i => hlapla i j)
  set z := zAccum n k (fun i2 => X i2 j) LPsi iL with hz
  refine ⟨?_, ?_, ?_⟩
  · intro i j1
    show 0 ≤ (if j1 = j then _ else ac.lapla i j1)
    split
    · show 0 ≤ if _ < lap then lap else _
      split
      · exact hlap
      · next hs => exact le_trans hlap (not_lt.mp hs)
    · exact hlapla i j1
  · intro i j1
    show ac.sum2 i j1 + z i * z j1 + (if i = j1 then iL i else 0)
      = ac.sum2 j1 i + z j1 * z i + (if j1 = i then iL j1 else 0)
    rw [hsymm i j1, mul_comm (z i) (z j1)]
    by_cases hij : i = j1
    · subst hij; rfl
    · rw [if_neg hij, if_neg (Ne.symm hij)]
  · intro v hv
    have hq : qf k (fun i j1 => ac.sum2 i j1 + z i * z j1
        + (if i = j1 then iL i else 0)) v
        = qf k ac.sum2 v + (∑ i, z i * v i) ^ 2 + ∑ i, iL i * v i ^ 2 := by
      have h1 : (fun i j1 => ac.sum2 i j1 + z i * z j1
          + (if i = j1 then iL i else 0))
          = fun i j1 => (fun a b => ac.sum2 a b + z a * z b) i j1
            + (fun a b => if a = b then iL a else 0) i j1 := rfl
      rw [h1, qf_add, qf_add, qf_outer, qf_diag]
    show 0 < qf k (fun i j1 => ac.sum2 i j1 + z i * z j1
      + (if i = j1 then iL i else 0)) v
    rw [hq]
    have h2 := hpd v hv
    have h3 : (0:ℚ) ≤ (∑ i, z i * v i) ^ 2 := sq_nonneg _
    have h4 : (0:ℚ) ≤ ∑ i, iL i * v i ^ 2 :=
      Finset.sum_nonneg fun i _ => mul_nonneg (hiLpos i).le (sq_nonneg _)
    linarith

theorem foldl_estep_preserves (n k l : ℕ) (X : Fin n → Fin l → ℚ)
    (spz lap : ℚ) (rpow : ℚ → ℚ → ℚ) (LPsi : Fin n → Fin k → ℚ)
    (LPsiL : Fin k → ℚ) (hlap : 0 ≤ lap) (hLPsiL : ∀ i, 0 ≤ LPsiL i) :
    ∀ (js : List (Fin l)) (ac : EAccum n k l), sum2Inv n k l lap ac →
      sum2Inv n k l lap
        (js.foldl (estepSample n k l X spz lap rpow LPsi LPsiL) ac) := by
  intro js
  induction js with
  | nil => intro ac h; exact h
  | cons j js ih =>
    intro ac h
    exact ih _ (estepSample_preserves n k l X spz lap rpow LPsi LPsiL
      hlap hLPsiL ac j h)

/-- A nonzero rational vector has positive sum of squares. -/
theorem sum_sq_pos (k : ℕ) (v : Fin k → ℚ) (hv : v ≠ 0) :
    0 < ∑ i, v i ^ 2 := by
  have hex : ∃ i, v i ≠ 0 := by
    by_contra hno
    push_neg at hno
    exact hv (funext hno)
  obtain ⟨i, hi⟩ := hex
  refine Finset.sum_pos' (fun i1 _ => sq_nonneg _) ⟨i, Finset.mem_univ i, ?_⟩
  exact lt_of_le_of_ne (sq_nonneg _) (Ne.symm (pow_ne_zero 2 hi))

theorem estepAll_sum2Inv (n k l : ℕ) (X : Fin n → Fin l → ℚ)
    (spz lap eps : ℚ) (rpow : ℚ → ℚ → ℚ) (LPsi : Fin n → Fin k → ℚ)
    (LPsiL : Fin k → ℚ) (Z0 : Fin k → Fin l → ℚ)
    (lapla0 : Fin k → Fin l → ℚ) (heps : 0 < eps) (hlap : 0 ≤ lap)
    (hLPsiL : ∀ i, 0 ≤ LPsiL i) (hlapla0 : ∀ i j, 0 ≤ lapla0 i j) :
    sum2Inv n k l lap
      (estepAll n k l X spz lap eps rpow LPsi LPsiL Z0 lapla0) := by
  rw [estepAll]
  refine foldl_estep_preserves n k l X spz lap rpow LPsi LPsiL hlap hLPsiL
    _ _ ⟨hlapla0, ?_, ?_⟩
  · intro i j
    show (if i = j then eps else 0) = (if j = i then eps else 0)
    by_cases hij : i = j
    · subst hij; rfl
    · rw [if_neg hij, if_neg (Ne.symm hij)]
  · intro v hv
    show 0 < qf k (fun i j => if i = j then eps else 0) v
    have h1 : (fun i j : Fin k => if i = j then eps else 0)
        = fun i j => if i = j then (fun _ : Fin k => eps) i else 0 := rfl
    rw [h1, qf_diag]
    have h2 : ∑ i, (fun _ : Fin k => eps) i * v i ^ 2
        = eps * ∑ i, v i ^ 2 := by
      rw [Finset.mul_sum]
    rw [h2]
    exact mul_pos heps (sum_sq_pos k v hv)

/-- C8: at the point the Cholesky-based inverse is invoked in an
iteration, the reduced `sum2` handed to it is symmetric positive-definite —
it equals `eps` times the identity plus, per sample, `z·zᵀ` plus the
positive diagonal contribution `iLPsiL` — given the data-model invariants
on the incoming state (`eps > 0`, `lap ≥ 0`, positive `Psi`, nonnegative
`lapla`).  Hence on such inputs the LAPACK `info` assertions inside
`invertCholesky`, which fail exactly when the matrix is not numerically
positive definite, do not fire. -/
theorem C8_sum2_spd (n k l : ℕ) (X : Fin n → Fin l → ℚ) (p : Params)
    (ext : Ext k) (st : EMState n k l) (heps : 0 < p.eps)
    (hlap : 0 ≤ p.lap) (hPsi : ∀ i, 0 < st.Psi i)
    (hlapla : ∀ i j, 0 ≤ st.lapla i j) :
    (∀ i j, (iterEs n k l X p ext st).sum2 i j
        = (iterEs n k l X p ext st).sum2 j i)
    ∧ ∀ v : Fin k → ℚ, v ≠ 0 →
        0 < ∑ i, ∑ j, v i * (iterEs n k l X p ext st).sum2 i j * v j := by
  have h := estepAll_sum2Inv n k l X p.spz p.lap p.eps ext.rpow
    (LPsiOf n k st.L st.Psi) (LPsiLOf n k st.L st.Psi) st.Z st.lapla
    heps hlap (LPsiLOf_nonneg n k st.L st.Psi hPsi) hlapla
  exact ⟨h.2.1, fun v hv => h.2.2 v hv⟩

/-- Witness for the C8 theorem at the concrete collapse run. -/
theorem C8_sum2_spd_witness :
    (∀ i j, (iterEs 1 1 1 (fun _ _ => 0) pC3 (extId 1) stC3).sum2 i j
        = (iterEs 1 1 1 (fun _ _ => 0) pC3 (extId 1) stC3).sum2 j i)
    ∧ ∀ v : Fin 1 → ℚ, v ≠ 0 →
        0 < ∑ i, ∑ j, v i
          * (iterEs 1 1 1 (fun _ _ => 0) pC3 (extId 1) stC3).sum2 i j
          * v j :=
  C8_sum2_spd 1 1 1 (fun _ _ => 0) pC3 (extId 1) stC3 (by norm_num [pC3])
    (by norm_num [pC3]) (fun i => by norm_num [stC3, initState])
    (fun i j => by norm_num [stC3, initState])

theorem foldl_estep_lapla_untouched (n k l : ℕ) (X : Fin n → Fin l → ℚ)
    (spz lap : ℚ) (rpow : ℚ → ℚ → ℚ) (LPsi : Fin n → Fin k → ℚ)
    (LPsiL : Fin k → ℚ) :
    ∀ (js : List (Fin l)) (ac : EAccum n k l) (i : Fin k) (j : Fin l),
      j ∉ js →
        (js.foldl (estepSample n k l X spz lap rpow LPsi LPsiL) ac).lapla i j
          = ac.lapla i j := by
  intro js
  induction js with
  | nil => intro ac i j _; rfl
  | cons j0 js ih =>
    intro ac i j hj
    have hj1 : j ∉ js := fun h => hj (List.mem_cons_of_mem j0 h)
    have hj0 : j ≠ j0 := fun h => hj (h ▸ List.mem_cons_self j0 js)
    rw [List.foldl_cons, ih _ i j hj1]
    show (if j = j0 then _ else ac.lapla i j) = ac.lapla i j
    rw [if_neg hj0]

theorem foldl_estep_lapla_ge (n k l : ℕ) (X : Fin n → Fin l → ℚ)
    (spz lap : ℚ) (rpow : ℚ → ℚ → ℚ) (LPsi : Fin n → Fin k → ℚ)
    (LPsiL : Fin k → ℚ) :
    ∀ (js : List (Fin l)) (ac : EAccum n k l) (i : Fin k) (j : Fin l),
      j ∈ js →
        lap ≤ (js.foldl (estepSample n k l X spz lap rpow LPsi LPsiL)
          ac).lapla i j := by
  intro js
  induction js with
  | nil => intro ac i j hj; exact absurd hj (List.not_mem_nil j)
  | cons j0 js ih =>
    intro ac i j hj
    by_cases hjs : j ∈ js
    · rw [List.foldl_cons]
      exact ih _ i j hjs
    · have hj0 : j = j0 := by
        rcases List.mem_cons.mp hj with h | h
        · exact h
        · exact absurd h hjs
      rw [List.foldl_cons,
        foldl_estep_lapla_untouched n k l X spz lap rpow LPsi LPsiL js _ i j
          hjs]
      subst hj0
      show lap ≤ if j = j then _ else ac.lapla i j
      rw [if_pos rfl]
      show lap ≤ if _ < lap then lap else _
      split
      · exact le_rfl
      · next hs => exact not_lt.mp hs

/-- After the E-step of an iteration, every variational parameter is at
least the floor `lap`. -/
theorem estepAll_lapla_ge (n k l : ℕ) (X : Fin n → Fin l → ℚ)
    (spz lap eps : ℚ) (rpow : ℚ → ℚ → ℚ) (LPsi : Fin n → Fin k → ℚ)
    (LPsiL : Fin k → ℚ) (Z0 : Fin k → Fin l → ℚ)
    (lapla0 : Fin k → Fin l → ℚ) (i : Fin k) (j : Fin l) :
    lap ≤ (estepAll n k l X spz lap eps rpow LPsi LPsiL Z0 lapla0).lapla
      i j := by
  rw [estepAll]
  exact foldl_estep_lapla_ge n k l X spz lap rpow LPsi LPsiL _ _ i j
    (List.mem_finRange j)

/-- Every `lapla` entry after the dead-column reset is either its incoming
value or exactly 1. -/
theorem foldl_reset_lapla (n k l : ℕ) (randn : ℕ → ℚ)
    (lapla0 : Fin k → Fin l → ℚ) (i : Fin k) (j : Fin l) :
    ∀ (is : List (Fin k))
      (ac : (Fin n → Fin k → ℚ) × (Fin k → Fin l → ℚ) × ℕ),
      (∀ i1 j1, ac.2.1 i1 j1 = lapla0 i1 j1 ∨ ac.2.1 i1 j1 = 1) →
        (is.foldl (resetFun n k l randn) ac).2.1 i j = lapla0 i j
          ∨ (is.foldl (resetFun n k l randn) ac).2.1 i j = 1 := by
  intro is
  induction is with
  | nil => intro ac h; exact h i j
  | cons i0 is ih =>
    intro ac h
    rw [List.foldl_cons]
    refine ih _ ?_
    intro i1 j1
    rw [resetFun]
    split
    · show (if i1 = i0 then 1 else ac.2.1 i1 j1) = _
        ∨ (if i1 = i0 then 1 else ac.2.1 i1 j1) = 1
      split
      · exact Or.inr rfl
      · exact h i1 j1
    · exact h i1 j1

/-- Every `lapla` entry after the dead-column reset is either its incoming
value or exactly 1. -/
theorem resetStep_lapla (n k l : ℕ) (randn : ℕ → ℚ)
    (L0 : Fin n → Fin k → ℚ) (lapla0 : Fin k → Fin l → ℚ) (rng0 : ℕ)
    (i : Fin k) (j : Fin l) :
    (resetStep n k l randn L0 lapla0 rng0).2.1 i j = lapla0 i j
      ∨ (resetStep n k l randn L0 lapla0 rng0).2.1 i j = 1 := by
  rw [resetStep]
  exact foldl_reset_lapla n k l randn lapla0 i j _ _
    (fun i1 j1 => Or.inl rfl)

/-- C4 (amended): after the E-step of every iteration each `lapla[i,j]` is
at least the floor `lap`; and after every completed (non-collapse) EM
iteration run with `scale=0`, each entry is either at least `lap` or
exactly 1, the latter exactly for rows of factors reset that iteration.
The claim as stated — `lapla[i,j] ≥ lap` after every completed iteration
for every parameter setting including `scale=1` and reset iterations — is
refuted by `C4_counterexample`. -/
theorem C4_lapla_floor_amended :
    (∀ (n k l : ℕ) (X : Fin n → Fin l → ℚ) (spz lap eps : ℚ)
        (rpow : ℚ → ℚ → ℚ) (LPsi : Fin n → Fin k → ℚ) (LPsiL : Fin k → ℚ)
        (Z0 : Fin k → Fin l → ℚ) (lapla0 : Fin k → Fin l → ℚ)
        (i : Fin k) (j : Fin l),
      lap ≤ (estepAll n k l X spz lap eps rpow LPsi LPsiL Z0
        lapla0).lapla i j)
    ∧ ∀ (n k l : ℕ) (X : Fin n → Fin l → ℚ) (XX : Fin n → ℚ) (p : Params)
        (ext : Ext k) (st : EMState n k l),
      p.scale = false → (iterStep n k l X XX p ext st).2.2 = false →
        ∀ (i : Fin k) (j : Fin l),
          p.lap ≤ (iterStep n k l X XX p ext st).1.lapla i j
            ∨ (iterStep n k l X XX p ext st).1.lapla i j = 1 := by
  refine ⟨fun n k l X spz lap eps rpow LPsi LPsiL Z0 lapla0 i j =>
    estepAll_lapla_ge n k l X spz lap eps rpow LPsi LPsiL Z0 lapla0 i j,
    ?_⟩
  intro n k l X XX p ext st hscale hnc i j
  by_cases h : iterT n k l X p ext st < p.eps
  · rw [iterStep_collapse n k l X XX p ext st h] at hnc
    exact absurd hnc (by simp)
  · simp only [iterStep, if_neg h, hscale, Bool.false_eq_true, if_false]
    rcases resetStep_lapla n k l ext.randn
        (iterL2 n k l X p ext st) (iterEs n k l X p ext st).lapla st.rng
        i j with hc | hc
    · left
      rw [hc]
      exact estepAll_lapla_ge n k l X p.spz p.lap p.eps ext.rpow
        (LPsiOf n k st.L st.Psi) (LPsiLOf n k st.L st.Psi) st.Z st.lapla i j
    · right
      rw [hc]

/-- Witness for the amended C4 theorem at a concrete completed run. -/
theorem C4_lapla_floor_amended_witness :
    pC4w.lap ≤ (iterStep 1 1 1 (fun _ _ => 0) (fun _ => 0) pC4w (extId 1)
        stC3).1.lapla 0 0
      ∨ (iterStep 1 1 1 (fun _ _ => 0) (fun _ => 0) pC4w (extId 1)
        stC3).1.lapla 0 0 = 1 :=
  C4_lapla_floor_amended.2 1 1 1 (fun _ _ => 0) (fun _ => 0) pC4w (extId 1)
    stC3 rfl
    (by norm_num [iterStep, iterT, iterD, iterL2, iterL1, iterEs, estepAll,
      estepSample, approx_estimateZ, zAccum, iLPsiLdiag, LPsiOf, LPsiLOf,
      shrinkL, shrinkEntry, csign, non_negative, MACHINE_EPS, initState,
      List.finRange_succ, List.finRange_zero, Fin.sum_univ_one, extId,
      pC4w, stC3, abs_of_nonneg]) 0 0

set_option maxHeartbeats 1000000 in
/-- In the dead-column-reset run (`lap = 2`, `scale=0`), the iteration
completes and returns `lapla[0,0] = 1 < lap`. -/
theorem C4_reset_run :
    (iterStep 1 2 1 XC4 (XXOf 1 1 XC4) pC4 extC4 stC4).2.2 = false
      ∧ (iterStep 1 2 1 XC4 (XXOf 1 1 XC4) pC4 extC4 stC4).1.lapla 0 0 = 1
      ∧ ¬ pC4.lap ≤ (iterStep 1 2 1 XC4 (XXOf 1 1 XC4) pC4 extC4 stC4).1.lapla 0 0 := by
  have h1 : (iterEs 1 2 1 XC4 pC4 extC4 stC4).sum1 0 0 = 0 := by
    norm_num [iterEs, estepAll, estepSample, approx_estimateZ, zAccum,
      iLPsiLdiag, LPsiOf, LPsiLOf, initState, stC4, pC4, extC4, XC4,
      MACHINE_EPS, List.finRange_succ, List.finRange_zero,
      Fin.sum_univ_one, Fin.sum_univ_two, Fin.succ_zero_eq_one]
  have h2 : (iterEs 1 2 1 XC4 pC4 extC4 stC4).sum1 0 1
      = 1000000000/20000001 := by
    norm_num [iterEs, estepAll, estepSample, approx_estimateZ, zAccum,
      iLPsiLdiag, LPsiOf, LPsiLOf, initState, stC4, pC4, extC4, XC4,
      MACHINE_EPS, List.finRange_succ, List.finRange_zero,
      Fin.sum_univ_one, Fin.sum_univ_two, Fin.succ_zero_eq_one]
  have h3 : (iterEs 1 2 1 XC4 pC4 extC4 stC4).sum2 0 0
      = 1010000001/1000000100 := by
    norm_num [iterEs, estepAll, estepSample, approx_estimateZ, zAccum,
      iLPsiLdiag, LPsiOf, LPsiLOf, initState, stC4, pC4, extC4, XC4,
      MACHINE_EPS, List.finRange_succ, List.finRange_zero,
      Fin.sum_univ_one, Fin.sum_univ_two, Fin.succ_zero_eq_one]
  have h4 : (iterEs 1 2 1 XC4 pC4 extC4 stC4).sum2 1 1
      = 1020400001040000001/40000004000000100 := by
    norm_num [iterEs, estepAll, estepSample, approx_estimateZ, zAccum,
      iLPsiLdiag, LPsiOf, LPsiLOf, initState, stC4, pC4, extC4, XC4,
      MACHINE_EPS, List.finRange_succ, List.finRange_zero,
      Fin.sum_univ_one, Fin.sum_univ_two, Fin.succ_zero_eq_one]
  have hlap : ∀ (i : Fin 2) (j : Fin 1),
      (iterEs 1 2 1 XC4 pC4 extC4 stC4).lapla i j = 2 := by
    intro i j
    have hj : j = 0 := Subsingleton.elim j 0
    subst hj
    match i with
    | 0 =>
      norm_num [iterEs, estepAll, estepSample, approx_estimateZ, zAccum,
        iLPsiLdiag, LPsiOf, LPsiLOf, initState, stC4, pC4, extC4, XC4,
        MACHINE_EPS, List.finRange_succ, List.finRange_zero,
        Fin.sum_univ_one, Fin.sum_univ_two, Fin.succ_zero_eq_one]
    | 1 =>
      norm_num [iterEs, estepAll, estepSample, approx_estimateZ, zAccum,
        iLPsiLdiag, LPsiOf, LPsiLOf, initState, stC4, pC4, extC4, XC4,
        MACHINE_EPS, List.finRange_succ, List.finRange_zero,
        Fin.sum_univ_one, Fin.sum_univ_two, Fin.succ_zero_eq_one]
  have hinv : extC4.inv = diagInv 2 := rfl
  have hfin01 : ¬ ((0 : Fin 2) = (1 : Fin 2)) := by decide
  have hL1a : iterL1 1 2 1 XC4 pC4 extC4 stC4 0 0 = 0 := by
    norm_num [iterL1, hinv, diagInv, Fin.sum_univ_two, h1, h2, h3, h4,
      hfin01]
  have hL1b : iterL1 1 2 1 XC4 pC4 extC4 stC4 0 1
      = 2000000100000000000/1020400001040000001 := by
    norm_num [iterL1, hinv, diagInv, Fin.sum_univ_two, h1, h2, h3, h4,
      hfin01]
  have hPsiP : ∀ i : Fin 1, stC4.Psi i = 1 := fun _ => rfl
  have hrpow : ∀ a b : ℚ, extC4.rpow a b = 1 := fun _ _ => rfl
  have halpha : pC4.alpha = 1/10 := rfl
  have hspl : pC4.spl = 0 := rfl
  have hL2a : ∀ j : Fin 1, iterL2 1 2 1 XC4 pC4 extC4 stC4 j 0 = 0 := by
    intro j
    have hj : j = 0 := Subsingleton.elim j 0
    subst hj
    norm_num [iterL2, shrinkL, shrinkEntry, csign, non_negative,
      MACHINE_EPS, hPsiP, hrpow, halpha, hspl, hL1a, abs_of_nonneg,
      abs_of_pos]
  have hL2b : ∀ j : Fin 1, iterL2 1 2 1 XC4 pC4 extC4 stC4 j 1
      = 18979600998959999999/10204000010400000010 := by
    intro j
    have hj : j = 0 := Subsingleton.elim j 0
    subst hj
    norm_num [iterL2, shrinkL, shrinkEntry, csign, non_negative,
      MACHINE_EPS, hPsiP, hrpow, halpha, hspl, hL1b, abs_of_nonneg,
      abs_of_pos]
  have hD : iterD 1 2 1 XC4 pC4 extC4 stC4 0
      = 1897960099895999999900000000/20408001041200001060000001 := by
    norm_num [iterD, Fin.sum_univ_two, hL2a 0, hL2b 0, h1, h2]
  have hT : iterT 1 2 1 XC4 pC4 extC4 stC4
      = 1897960099895999999900000000/20408001041200001060000001 := by
    norm_num [iterT, List.finRange_succ, List.finRange_zero, hD,
      abs_of_nonneg, abs_of_pos]
  have heps : pC4.eps = 1/100 := rfl
  have hsc : pC4.scale = false := rfl
  have hlapP : pC4.lap = 2 := rfl
  have hrng : stC4.rng = 0 := rfl
  have hrandn : ∀ m : ℕ, extC4.randn m = 1 := fun _ => rfl
  have hfin10 : ¬ ((1 : Fin 2) = (0 : Fin 2)) := by decide
  refine ⟨?_, ?_, ?_⟩
  · norm_num [iterStep, hT, heps]
  · norm_num [iterStep, hT, heps, hsc, hrng, hrandn, hfin10, resetStep,
      resetFun, List.finRange_succ, List.finRange_zero, hL2a, hL2b, hlap,
      Fin.succ_zero_eq_one, Fin.forall_fin_one]
  · norm_num [iterStep, hT, heps, hsc, hrng, hrandn, hfin10, hlapP,
      resetStep, resetFun, List.finRange_succ, List.finRange_zero, hL2a,
      hL2b, hlap, Fin.succ_zero_eq_one, Fin.forall_fin_one]

set_option maxHeartbeats 1000000 in
/-- In the rescale run (`lap = 2`, `scale=1`), the iteration completes and
the rescale multiplies `lapla[0,0]` below `lap`. -/
theorem C4_scale_run :
    (iterStep 1 1 1 XC4b (XXOf 1 1 XC4b) pC4b extC4b stC4b).2.2 = false
      ∧ ¬ pC4b.lap ≤ (iterStep 1 1 1 XC4b (XXOf 1 1 XC4b) pC4b extC4b
        stC4b).1.lapla 0 0 := by
  have hrpowb : extC4b.rpow = powC4b := rfl
  have hrsqrtb : extC4b.rsqrt = rsqrtC4b := rfl
  have hinvb : extC4b.inv = diagInv 1 := rfl
  have hrandnb : ∀ m : ℕ, extC4b.randn m = 1 := fun _ => rfl
  have hPsiP : ∀ i : Fin 1, stC4b.Psi i = 1 := fun _ => rfl
  have halpha : pC4b.alpha = 1/4 := rfl
  have hspl : pC4b.spl = 0 := rfl
  have hspz : pC4b.spz = 1 := rfl
  have heps : pC4b.eps = 1/100 := rfl
  have hsc : pC4b.scale = true := rfl
  have hlapP : pC4b.lap = 2 := rfl
  have hrng : stC4b.rng = 0 := rfl
  have h1 : (iterEs 1 1 1 XC4b pC4b extC4b stC4b).sum1 0 0
      = 10000000/20000001 := by
    norm_num [iterEs, estepAll, estepSample, approx_estimateZ, zAccum,
      iLPsiLdiag, LPsiOf, LPsiLOf, initState, stC4b, pC4b, extC4b, XC4b,
      powC4b, MACHINE_EPS, List.finRange_succ, List.finRange_zero,
      Fin.sum_univ_one]
  have h2 : (iterEs 1 1 1 XC4b pC4b extC4b stC4b).sum2 0 0
      = 30400001040000001/40000004000000100 := by
    norm_num [iterEs, estepAll, estepSample, approx_estimateZ, zAccum,
      iLPsiLdiag, LPsiOf, LPsiLOf, initState, stC4b, pC4b, extC4b, XC4b,
      powC4b, MACHINE_EPS, List.finRange_succ, List.finRange_zero,
      Fin.sum_univ_one]
  have hlap : ∀ (i : Fin 1) (j : Fin 1),
      (iterEs 1 1 1 XC4b pC4b extC4b stC4b).lapla i j = 2 := by
    intro i j
    have hi : i = 0 := Subsingleton.elim i 0
    have hj : j = 0 := Subsingleton.elim j 0
    subst hi; subst hj
    norm_num [iterEs, estepAll, estepSample, approx_estimateZ, zAccum,
      iLPsiLdiag, LPsiOf, LPsiLOf, initState, stC4b, pC4b, extC4b, XC4b,
      powC4b, MACHINE_EPS, List.finRange_succ, List.finRange_zero,
      Fin.sum_univ_one]
  have hL1 : iterL1 1 1 1 XC4b pC4b extC4b stC4b 0 0
      = 20000001000000000/30400001040000001 := by
    norm_num [iterL1, hinvb, diagInv, Fin.sum_univ_one, h1, h2]
  have hL2 : ∀ j : Fin 1, iterL2 1 1 1 XC4b pC4b extC4b stC4b j 0
      = 49600002959999999/121600004160000004 := by
    intro j
    have hj : j = 0 := Subsingleton.elim j 0
    subst hj
    norm_num [iterL2, shrinkL, shrinkEntry, csign, non_negative,
      MACHINE_EPS, hPsiP, hrpowb, powC4b, halpha, hspl, hL1,
      abs_of_nonneg, abs_of_pos]
  have hD : iterD 1 1 1 XC4b pC4b extC4b stC4b 0
      = 124000007399999997500000/608000051200001060000001 := by
    norm_num [iterD, Fin.sum_univ_one, hL2 0, h1]
  have hT : iterT 1 1 1 XC4b pC4b extC4b stC4b
      = 124000007399999997500000/608000051200001060000001 := by
    norm_num [iterT, List.finRange_succ, List.finRange_zero, hD,
      abs_of_nonneg, abs_of_pos]
  refine ⟨?_, ?_⟩
  · norm_num [iterStep, hT, heps]
  · norm_num [iterStep, hT, heps, hsc, hspz, hlapP, hrng, hrandnb,
      hrsqrtb, hrpowb, scaleStep, rsqrtC4b, powC4b, L2C4b, resetStep,
      resetFun, List.finRange_succ, List.finRange_zero, hL2, hlap,
      MACHINE_EPS, Fin.forall_fin_one, Fin.sum_univ_one]

/-- C4 counterexample: two concrete completed (non-collapse) iterations
after which a `lapla` entry is below the raised floor `lap = 2` — one via
the dead-column reset (the row is set to 1), one via the `scale=1` rescale
(the row is multiplied by `(s²)^(−spz) < 1`). -/
theorem C4_counterexample :
    ((iterStep 1 2 1 XC4 (XXOf 1 1 XC4) pC4 extC4 stC4).2.2 = false
      ∧ (iterStep 1 2 1 XC4 (XXOf 1 1 XC4) pC4 extC4 stC4).1.lapla 0 0 = 1
      ∧ ¬ pC4.lap ≤ (iterStep 1 2 1 XC4 (XXOf 1 1 XC4) pC4 extC4
        stC4).1.lapla 0 0)
    ∧ ((iterStep 1 1 1 XC4b (XXOf 1 1 XC4b) pC4b extC4b stC4b).2.2 = false
      ∧ ¬ pC4b.lap ≤ (iterStep 1 1 1 XC4b (XXOf 1 1 XC4b) pC4b extC4b
        stC4b).1.lapla 0 0) :=
  ⟨C4_reset_run, C4_scale_run⟩

/-- Witness for the C5 theorem: one full cycle on a concrete run. -/
theorem C5_psi_ge_eps_witness :
    pC3.eps ≤ (fabiaMain 1 1 1 (fun _ _ => 0) (fun _ => 1) (fun _ _ => 1)
      (fun _ _ => 0) (fun _ _ => 1) pC3 (extId 1)).Psi 0 :=
  C5_psi_ge_eps.2 1 1 1 (fun _ _ => 0) (fun _ => 1) (fun _ _ => 1)
    (fun _ _ => 0) (fun _ _ => 1) pC3 (extId 1) 0 (by norm_num [pC3])

/-- C6 (amended): calling the engine body with `cyc=0` returns `L`, `Psi`
and `lapla` exactly as supplied, but not `Z`: the loop variable `t` stays
0, so with `eps > 0` the final branch takes the collapse arm and zeroes
`Z` (and with `eps ≤ 0` the final E-only pass overwrites it).  The claim
as stated — nothing changes — is refuted by `C6_counterexample`. -/
theorem C6_cyc0_frame_amended (n k l : ℕ) (X : Fin n → Fin l → ℚ)
    (Psi0 : Fin n → ℚ) (L0 : Fin n → Fin k → ℚ) (Z0 : Fin k → Fin l → ℚ)
    (lapla0 : Fin k → Fin l → ℚ) (p : Params) (ext : Ext k)
    (hc : p.cyc = 0) :
    (fabiaMain n k l X Psi0 L0 Z0 lapla0 p ext).L = L0
    ∧ (fabiaMain n k l X Psi0 L0 Z0 lapla0 p ext).Psi = Psi0
    ∧ (fabiaMain n k l X Psi0 L0 Z0 lapla0 p ext).lapla = lapla0
    ∧ (0 < p.eps →
        (fabiaMain n k l X Psi0 L0 Z0 lapla0 p ext).Z = fun _ _ => 0) := by
  refine ⟨?_, ?_, ?_, ?_⟩
  · simp only [fabiaMain, hc, emLoop]
    split <;> rfl
  · simp only [fabiaMain, hc, emLoop]
    split <;> rfl
  · simp only [fabiaMain, hc, emLoop]
    split <;> rfl
  · intro heps
    simp only [fabiaMain, hc, emLoop]
    rw [if_neg]
    exact not_le.mpr heps

/-- Witness for the amended C6 theorem at a concrete `cyc=0` run. -/
theorem C6_cyc0_frame_witness :
    (fabiaMain 1 1 1 (fun _ _ => 2) (fun _ => 1) (fun _ _ => 1)
        (fun _ _ => 5) (fun _ _ => 1) pC6 (extId 1)).L = (fun _ _ => 1)
    ∧ (fabiaMain 1 1 1 (fun _ _ => 2) (fun _ => 1) (fun _ _ => 1)
        (fun _ _ => 5) (fun _ _ => 1) pC6 (extId 1)).Psi = (fun _ => 1)
    ∧ (fabiaMain 1 1 1 (fun _ _ => 2) (fun _ => 1) (fun _ _ => 1)
        (fun _ _ => 5) (fun _ _ => 1) pC6 (extId 1)).lapla
      = (fun _ _ => 1)
    ∧ (0 < pC6.eps →
        (fabiaMain 1 1 1 (fun _ _ => 2) (fun _ => 1) (fun _ _ => 1)
          (fun _ _ => 5) (fun _ _ => 1) pC6 (extId 1)).Z
        = fun _ _ => 0) :=
  C6_cyc0_frame_amended 1 1 1 (fun _ _ => 2) (fun _ => 1) (fun _ _ => 1)
    (fun _ _ => 5) (fun _ _ => 1) pC6 (extId 1) rfl

/-- C6 counterexample: with `cyc=0` (and every allocation succeeding) the
engine returns `Z = 0` although the caller supplied `Z = 5`. -/
theorem C6_counterexample :
    (approx_fabia_cm_f 1 1 1 (fun _ _ => 2) (fun _ => 1) (fun _ _ => 1)
        (fun _ _ => 5) (fun _ _ => 1) pC6 (extId 1) (fun _ => true)).Z 0 0
      = 0
    ∧ (5:ℚ) ≠ 0 := by
  constructor
  · norm_num [approx_fabia_cm_f, fabiaMain, emLoop, lapRaise, initState,
      pC6]
  · norm_num

/-- C7 (amended): when the last of the seven startup allocations
(`iLPsiLX_`) fails, the engine returns immediately with `L` and `Z` zeroed
and `Psi`, `lapla` untouched.  The guard tests only that pointer, so a
failure of an earlier allocation alone does not trigger the early return;
the claim as stated — the early return happens whichever of the seven
allocations fails — is refuted by `C7_counterexample`. -/
theorem C7_oom_guard_amended (n k l : ℕ) (X : Fin n → Fin l → ℚ)
    (Psi0 : Fin n → ℚ) (L0 : Fin n → Fin k → ℚ) (Z0 : Fin k → Fin l → ℚ)
    (lapla0 : Fin k → Fin l → ℚ) (p : Params) (ext : Ext k)
    (allocOk : Fin 7 → Bool) (h : allocOk 6 = false) :
    approx_fabia_cm_f n k l X Psi0 L0 Z0 lapla0 p ext allocOk
      = { L := fun _ _ => 0, Psi := Psi0, Z := fun _ _ => 0
          lapla := lapla0 } := by
  simp only [approx_fabia_cm_f, h, Bool.false_eq_true, if_false]

/-- Witness for the amended C7 theorem with every allocation failing. -/
theorem C7_oom_guard_witness :
    approx_fabia_cm_f 1 1 1 (fun _ _ => 2) (fun _ => 1) (fun _ _ => 1)
      (fun _ _ => 5) (fun _ _ => 1) pC6 (extId 1) (fun _ => false)
      = { L := fun _ _ => 0, Psi := fun _ => 1, Z := fun _ _ => 0
          lapla := fun _ _ => 1 } :=
  C7_oom_guard_amended 1 1 1 (fun _ _ => 2) (fun _ => 1) (fun _ _ => 1)
    (fun _ _ => 5) (fun _ _ => 1) pC6 (extId 1) (fun _ => false) rfl

/-- C7 counterexample: when only the first allocation (`sum1_`) fails, the
engine does not take the early-return path: with `cyc=0` it returns the
caller value of `L` (here 1) instead of zeroing it. -/
theorem C7_counterexample :
    allocFail0 0 = false
    ∧ (approx_fabia_cm_f 1 1 1 (fun _ _ => 2) (fun _ => 1) (fun _ _ => 1)
        (fun _ _ => 5) (fun _ _ => 1) pC6 (extId 1) allocFail0).L 0 0 = 1
    ∧ (1:ℚ) ≠ 0 := by
  refine ⟨rfl, ?_, by norm_num⟩
  have h6 : ((6 : Fin 7) : ℕ) = 6 := rfl
  norm_num [approx_fabia_cm_f, allocFail0, fabiaMain, emLoop, lapRaise,
    initState, pC6, h6]

end Fabia
